import Mathlib

/-!
Verification of `src/codes/utils/functions.py` (genetic-codes repository).

Codons are embedded as lists of characters (Python strings), residues as
characters (the single-letter amino-acid symbols, stop `'*'`, null `'0'`).
A Python dict is embedded as its ordered key list together with a lookup
function where only lookups at existing keys occur, or as an ordered
association list where the dict itself is built and returned.
Python sets are embedded as membership lists or `Finset`s: only membership
and cardinality of a set are ever observed by the code under study.
-/

namespace Codes

abbrev Codon := List Char

/-- Modelled from the spec: `rNTPs`, the fixed 4-letter RNA nucleotide
alphabet {U, C, A, G} (from `codes.utils.definitions`, not under `src/`;
the spec fixes the alphabet and the U-C-A-G order is the standard NTP
order the repository sorts by). -/
def rNTPs : List Char := ['U', 'C', 'A', 'G']

/-- Modelled from the spec: `triplet_codons`, the fixed 64-codon domain of
length-3 sequences over `rNTPs` (from `codes.utils.definitions`). -/
def triplet_codons : List Codon :=
  rNTPs.flatMap (fun n1 => rNTPs.flatMap (fun n2 => rNTPs.map (fun n3 => [n1, n2, n3])))

/-- The point-mutation loop shared by `_connect_recurse`, `get_codon_neighbors`
and `get_mut_pairs`: `for i, base in enumerate(codon): for nt in rNTPs:
if nt == base: continue; c_new = codon[:i] + nt + codon[i+1:]`. -/
def point_mutants (codon : Codon) : List Codon :=
  codon.enum.flatMap (fun p =>
    (rNTPs.filter (fun nt => nt ≠ p.2)).map (fun nt =>
      codon.take p.1 ++ [nt] ++ codon.drop (p.1 + 1)))

/-- `get_codon_neighbors(codon)`: the list of codons one point mutation away,
in generation order (its loop is literally the shared point-mutation loop). -/
def get_codon_neighbors (codon : Codon) : List Codon :=
  point_mutants codon

/-- The working state of one `_connect_recurse` search: the growing
`neighbors` result list, the FIFO `codon_deque` (Python pairs
`appendleft` with `pop`-from-the-right, a FIFO discipline; it is embedded
with the orientation mirrored: enqueue appends at the back, dequeue takes
the head), and the `cache` set of discovered codons (a Python `set`,
embedded as a membership list: the code only adds elements and tests
membership). -/
structure BFSState where
  neighbors : List (Codon × Nat)
  queue : List (Codon × Nat)
  cache : List Codon

/-- One classification step of `_connect_recurse`'s inner loop, for a single
generated mutant `c_new` of the codon being expanded at `level`:
already-cached mutants are skipped; a mutant decoding a different residue is
recorded as a boundary `(c_new, level)` and cached; a same-residue mutant is
cached and enqueued `(c_new, level)`. -/
def classify (table : Codon → Char) (codon : Codon) (level : Nat)
    (st : BFSState) (c_new : Codon) : BFSState :=
  if c_new ∈ st.cache then st
  else if table c_new ≠ table codon then
    { st with neighbors := st.neighbors ++ [(c_new, level)], cache := c_new :: st.cache }
  else
    { st with cache := c_new :: st.cache, queue := st.queue ++ [(c_new, level)] }

/-- The double loop at the top of `_connect_recurse`: classify every point
mutant of `codon` in generation order. -/
def expand (table : Codon → Char) (codon : Codon) (level : Nat)
    (st : BFSState) : BFSState :=
  (point_mutants codon).foldl (classify table codon level) st

/-- The `while not len(codon_deque) == 0` drain of `_connect_recurse`.  The
source intermixes recursive calls with queue draining, but every recursive
call shares the one deque, list and cache and each `pop` takes the globally
oldest entry, so the computation is this single FIFO worklist loop: dequeue
`(c, newlevel)` and expand `c` at `newlevel + 1`.  `fuel` bounds the number
of dequeues; every enqueued codon is fresh in the cache, so the loop below
drains within the fuel `connect_fuel` supplies. -/
def connectLoop (table : Codon → Char) : Nat → BFSState → List (Codon × Nat)
  | 0, st => st.neighbors
  | Nat.succ fuel, st =>
    match st.queue with
    | [] => st.neighbors
    | (c, newlevel) :: rest =>
      connectLoop table fuel (expand table c (newlevel + 1) ⟨st.neighbors, rest, st.cache⟩)

/-- `_connect_recurse(codon, level, table, neighbors, codon_deque, cache)`:
classify every mutant of `codon` at `level`, then drain the queue. -/
def connect_recurse (table : Codon → Char) (fuel : Nat) (codon : Codon)
    (level : Nat) (st : BFSState) : List (Codon × Nat) :=
  connectLoop table fuel (expand table codon level st)

/-- `cache = set(codon)` in `get_codon_connectivity`: Python builds the set
of the *characters* of the codon string (each a length-1 string), not the
singleton `{codon}` its comment describes. -/
def init_cache (codon : Codon) : List Codon :=
  codon.map (fun ch => [ch])

/-- Fuel bound for the FIFO drain: every codon ever enqueued takes each of
its positions from either the original character there or one of the four
`rNTPs`, and enqueued codons are pairwise distinct (each is cache-fresh when
enqueued), so at most `5 ^ length` dequeues can ever happen. -/
def connect_fuel (codon : Codon) : Nat :=
  5 ^ codon.length + 1

/-- The record `get_codon_connectivity` computes for one source codon: the
BFS seeded at the source with level 1, empty deque, empty neighbors list and
`cache = set(codon)`. -/
def codon_record (table : Codon → Char) (codon : Codon) : List (Codon × Nat) :=
  connect_recurse table (connect_fuel codon) codon 1 ⟨[], [], init_cache codon⟩

/-- `get_codon_connectivity(table)`: per source codon (in key order), run the
plateau BFS.  The dict is embedded as its ordered key list `keys` plus the
lookup function `table` (total on every codon the claims' tables reach; a
missing key would be a fatal Python `KeyError`). -/
def get_codon_connectivity (keys : List Codon) (table : Codon → Char) :
    List (Codon × List (Codon × Nat)) :=
  keys.map (fun codon => (codon, codon_record table codon))

/-- `resi_dist_dict[A1] += aa_neighbors` with first-insertion key order: a
Python dict update that appends to an existing key's list or appends a new
key at the end. -/
def dict_append (acc : List (Char × List (Char × Nat))) (A1 : Char)
    (xs : List (Char × Nat)) : List (Char × List (Char × Nat)) :=
  if acc.any (fun p => p.1 = A1) then
    acc.map (fun p => if p.1 = A1 then (p.1, p.2 ++ xs) else p)
  else
    acc ++ [(A1, xs)]

/-- `get_resi_connectivity(table)`: translate every codon's connectivity
record (boundary codon replaced by its residue) and append it, without
deduplication, to the record of the residue the codon encodes. -/
def get_resi_connectivity (keys : List Codon) (table : Codon → Char) :
    List (Char × List (Char × Nat)) :=
  (get_codon_connectivity keys table).foldl
    (fun acc p =>
      dict_append acc (table p.1) (p.2.map (fun q => (table q.1, q.2))))
    []

/-- Python `set.add` on a set embedded as a duplicate-free list (used where
the code observes a set's size, not only membership). -/
def set_add {α : Type} [DecidableEq α] (s : List α) (x : α) : List α :=
  if x ∈ s then s else s ++ [x]

/-- `mut_pair_num(table)`: the closed form `(a^l) * l * (a-1)` where `a` is
the size of the alphabet collected from the table's codons and `l` the
length of the first codon of `codon_list = list(table)` (the ordered key
list; Python raises `IndexError` on an empty table, so the theorems below
assume `keys` nonempty). -/
def mut_pair_num (keys : List Codon) : Nat :=
  let alphabet := keys.foldl (fun s codon => codon.foldl set_add s) []
  let a := alphabet.length
  let l := (keys.headD []).length
  (a ^ l) * l * (a - 1)

/-- The pair-generation loop body of `get_mut_pairs` for one codon of the
table: all `(codon, c_new)` with `c_new` a point substitution drawn from
`rNTPs`, in generation order. -/
def mut_pairs_of (codon : Codon) : List (Codon × Codon) :=
  codon.enum.flatMap (fun p =>
    (rNTPs.filter (fun nt => nt ≠ p.2)).map (fun nt =>
      (codon, codon.take p.1 ++ [nt] ++ codon.drop (p.1 + 1))))

/-- `get_mut_pairs(table)`: the Python set of all directed single-mutation
pairs `(codon, c_new)` over the table's key list, embedded as the `Finset`
the insertions build. -/
def get_mut_pairs (keys : List Codon) : Finset (Codon × Codon) :=
  keys.foldl (fun mp codon => (mut_pairs_of codon).foldl (fun mp pr => insert pr mp) mp) ∅

/-- Modelled from the spec: `kd_hydropathy`, the external fixed
Kyte-Doolittle hydropathy mapping keyed by single-letter residue symbol
(from `codes.utils.definitions`, not under `src/`); `none` for a residue
the scale does not cover (a fatal Python `KeyError` lookup). Exact decimal
values are embedded as rationals. -/
def kd_hydropathy : Char → Option ℚ
  | 'I' => some (45 / 10) | 'V' => some (42 / 10) | 'L' => some (38 / 10)
  | 'F' => some (28 / 10) | 'C' => some (25 / 10) | 'M' => some (19 / 10)
  | 'A' => some (18 / 10) | 'G' => some (-4 / 10) | 'T' => some (-7 / 10)
  | 'S' => some (-8 / 10) | 'W' => some (-9 / 10) | 'Y' => some (-13 / 10)
  | 'P' => some (-16 / 10) | 'H' => some (-32 / 10) | 'E' => some (-35 / 10)
  | 'Q' => some (-35 / 10) | 'D' => some (-35 / 10) | 'N' => some (-35 / 10)
  | 'K' => some (-39 / 10) | 'R' => some (-45 / 10)
  | _ => none

/-- `mutability(table)`: the mean absolute Kyte-Doolittle difference over the
nonsynonymous mutation pairs; `0` when there are none; `none` embeds the
fatal `KeyError` Python raises when a nonsynonymous pair's endpoint residue
is missing from the hydropathy scale.  The Python loop iterates the pair
set in its (unspecified) set order; the sum of nonnegative exact values is
order-independent, so it is embedded as the `Finset` sum. -/
def mutability (keys : List Codon) (table : Codon → Char) : Option ℚ :=
  let mut_pairs := get_mut_pairs keys
  let nonsyn := mut_pairs.filter (fun pr => ¬ table pr.1 = table pr.2)
  let nonsyn_mut := nonsyn.card
  if ∀ pr ∈ nonsyn, (kd_hydropathy (table pr.1)).isSome ∧ (kd_hydropathy (table pr.2)).isSome
  then
    let metric := nonsyn.sum
      (fun pr => |((kd_hydropathy (table pr.1)).getD 0) - ((kd_hydropathy (table pr.2)).getD 0)|)
    if nonsyn_mut = 0 then some 0 else some (metric / nonsyn_mut)
  else none

/-- A slot of the table `promiscuity` builds: either a plain residue symbol
(a Python `str`) or the ambiguous tuple of residue symbols the conflict
branch packages (a Python `tuple`).  The spec's hidden shape promotion:
Python iterates a one-character string as the one-element character list. -/
inductive Resi where
  | sym (c : Char)
  | amb (cs : List Char)
deriving DecidableEq

/-- Python iteration `for aa in promiscuous[c]`: the characters of a plain
string slot, or the elements of a tuple slot. -/
def Resi.iter : Resi → List Char
  | .sym c => [c]
  | .amb cs => cs

/-- Modelled from the spec: `basepair_WC`, the external fixed Watson-Crick
base-pairing complement per nucleotide (from `codes.utils.definitions`, not
under `src/`); `none` embeds the fatal `KeyError` on a non-RNA character. -/
def basepair_WC : Char → Option Char
  | 'U' => some 'A'
  | 'C' => some 'G'
  | 'A' => some 'U'
  | 'G' => some 'C'
  | _ => none

/-- Modelled from the spec: `wobble_WC`, the external fixed Crick-wobble
mapping from a paired (anticodon wobble-position) nucleotide to the set of
codon third-position nucleotides it can wobble-pair with (from
`codes.utils.definitions`, not under `src/`): anticodon U reads A and G,
G reads U and C, A reads only U, C reads only G. -/
def wobble_WC : Char → Option (List Char)
  | 'U' => some ['A', 'G']
  | 'C' => some ['G']
  | 'A' => some ['U']
  | 'G' => some ['U', 'C']
  | _ => none

/-- The Python `ValueError` message of the ambiguity conflict. -/
def ambiguity_error : String :=
  "input code generates ambiguous code upon promiscuization"

/-- Lookup `promiscuous[c]` in the output dict under construction (embedded
as an ordered association list over the 64 codons). -/
def dict_lookup (d : List (Codon × Resi)) (c : Codon) : Option Resi :=
  (d.find? (fun p => p.1 = c)).map (fun p => p.2)

/-- Assignment `promiscuous[c] = v` on an existing key (every codon the
collapse writes was already read, so the key is present). -/
def dict_set (d : List (Codon × Resi)) (c : Codon) (v : Resi) : List (Codon × Resi) :=
  d.map (fun p => if p.1 = c then (p.1, v) else p)

/-- The body of `for c in codons` in `promiscuity`, processing one
wobble-equivalent target codon `c` for the residue `AA`: if the slot already
holds something other than `AA` or the null `'0'`, it is an ambiguity
conflict — fatal `ValueError` when `allow_ambiguous` is false, otherwise the
slot becomes the tuple of its non-null residues followed by `AA`; otherwise
the slot is simply (re)assigned `AA`.  A missing slot key is a fatal
`KeyError` (raised by the read, before any write). -/
def promis_step (allow_ambiguous : Bool) (AA : Char)
    (d : List (Codon × Resi)) (c : Codon) : Except String (List (Codon × Resi)) :=
  match dict_lookup d c with
  | none => .error "KeyError"
  | some slot =>
    if ¬ (slot = .sym AA ∨ slot = .sym '0') then
      if ¬ allow_ambiguous then
        .error ambiguity_error
      else
        .ok (dict_set d c (.amb (slot.iter.filter (fun aa => aa ≠ '0') ++ [AA])))
    else
      .ok (dict_set d c (.sym AA))

/-- The body of `for codon, AA in table.items()` in `promiscuity`: entries
whose residue is `'0'` are skipped (the code tests `AA == '0'` even though
its comment says "skip assignments to STOP"); otherwise the wobble-equivalent
codon set keyed on the codon's own third position is computed and each of
its codons is processed in order.  `codon[-1]` on an empty codon is a fatal
`IndexError`; a nucleotide outside the wobble tables a fatal `KeyError`. -/
def promis_entry (allow_ambiguous : Bool) (d : List (Codon × Resi))
    (entry : Codon × Char) : Except String (List (Codon × Resi)) :=
  let codon := entry.1
  let AA := entry.2
  if AA = '0' then .ok d
  else
    match codon.getLast? with
    | none => .error "IndexError"
    | some last =>
      match basepair_WC last with
      | none => .error "KeyError"
      | some paired =>
        match wobble_WC paired with
        | none => .error "KeyError"
        | some wobble =>
          let codons := wobble.map (fun nt3 => codon.take 2 ++ [nt3])
          codons.foldlM (promis_step allow_ambiguous AA) d

/-- `promiscuity(table, allow_ambiguous)`: initialize the output over all 64
triplet codons to `'0'`, then fold the reassignment loop over the input
table's entries in order.  The input dict is embedded as its ordered entry
list; exceptions are embedded as `Except.error` with the raised message. -/
def promiscuity (table : List (Codon × Char)) (allow_ambiguous : Bool) :
    Except String (List (Codon × Resi)) :=
  let init := triplet_codons.map (fun codon => (codon, Resi.sym '0'))
  table.foldlM (promis_entry allow_ambiguous) init

/-- `is_ambiguous(table)`: run the collapser with ambiguity disallowed inside
a bare `try`/`except`; any failure at all reports `True`. -/
def is_ambiguous (table : List (Codon × Char)) : Bool :=
  match promiscuity table false with
  | .ok _ => false
  | .error _ => true

/-- The number of positions at which two codons differ (on their common
length). -/
def diff_positions (c c' : Codon) : Nat :=
  (List.zip c c').countP (fun p => decide (p.1 ≠ p.2))

/-!  ## Theorems  -/

theorem perm_toFinset {α : Type} [DecidableEq α] {l₁ l₂ : List α}
    (h : l₁.Perm l₂) : l₁.toFinset = l₂.toFinset :=
  Finset.ext fun x => by simp only [List.mem_toFinset, h.mem_iff]

theorem mem_foldl_insert {α : Type} [DecidableEq α] (l : List α) (s : Finset α)
    (x : α) : x ∈ l.foldl (fun mp pr => insert pr mp) s ↔ x ∈ s ∨ x ∈ l := by
  induction l generalizing s with
  | nil => simp
  | cons a l ih =>
    simp only [List.foldl_cons, ih, Finset.mem_insert, List.mem_cons]
    tauto

theorem mem_mut_fold (keys : List Codon) (s : Finset (Codon × Codon))
    (pr : Codon × Codon) :
    pr ∈ keys.foldl
        (fun mp codon => (mut_pairs_of codon).foldl (fun mp pr => insert pr mp) mp) s ↔
      pr ∈ s ∨ ∃ codon ∈ keys, pr ∈ mut_pairs_of codon := by
  induction keys generalizing s with
  | nil => simp
  | cons c keys ih =>
    simp only [List.foldl_cons, ih, mem_foldl_insert, List.mem_cons]
    constructor
    · rintro ((h | h) | ⟨codon, hc, hm⟩)
      · exact Or.inl h
      · exact Or.inr ⟨c, Or.inl rfl, h⟩
      · exact Or.inr ⟨codon, Or.inr hc, hm⟩
    · rintro (h | ⟨codon, (rfl | hc), hm⟩)
      · exact Or.inl (Or.inl h)
      · exact Or.inl (Or.inr hm)
      · exact Or.inr ⟨codon, hc, hm⟩

theorem mem_get_mut_pairs {keys : List Codon} {pr : Codon × Codon} :
    pr ∈ get_mut_pairs keys ↔ ∃ codon ∈ keys, pr ∈ mut_pairs_of codon := by
  simpa using mem_mut_fold keys ∅ pr

theorem mem_mut_pairs_of {codon : Codon} {pr : Codon × Codon} :
    pr ∈ mut_pairs_of codon ↔
      pr.1 = codon ∧ ∃ i base nt, codon[i]? = some base ∧ nt ∈ rNTPs ∧ nt ≠ base ∧
        pr.2 = codon.take i ++ [nt] ++ codon.drop (i + 1) := by
  unfold mut_pairs_of
  simp only [List.mem_flatMap, List.mem_map, List.mem_filter, List.mem_enum_iff_getElem?]
  constructor
  · rintro ⟨⟨i, base⟩, hget, nt, ⟨hnt, hne⟩, rfl⟩
    exact ⟨rfl, i, base, nt, hget, hnt, by simpa using hne, rfl⟩
  · rintro ⟨h1, i, base, nt, hget, hnt, hne, h2⟩
    obtain ⟨p1, p2⟩ := pr
    simp only at h1 h2
    subst h1
    subst h2
    exact ⟨(i, base), hget, nt, ⟨hnt, by simpa using hne⟩, rfl⟩

/-- Claim C8: for every length-3 codon over the 4-letter RNA alphabet,
`get_codon_neighbors` returns exactly `l × (a − 1) = 9` codons, and every
returned codon has the input's length and differs from it in exactly one
position (hence in no more than one). -/
theorem claim_C8_codon_neighbors :
    ∀ codon ∈ triplet_codons,
      (get_codon_neighbors codon).length = 3 * (4 - 1) ∧
      ∀ c' ∈ get_codon_neighbors codon,
        c'.length = codon.length ∧ diff_positions codon c' = 1 := by
  decide

/-- Witness for C8 at the concrete codon `AAA`. -/
theorem claim_C8_codon_neighbors_witness :
    (get_codon_neighbors ['A','A','A']).length = 3 * (4 - 1) ∧
    ∀ c' ∈ get_codon_neighbors ['A','A','A'],
      c'.length = (['A','A','A'] : Codon).length ∧ diff_positions ['A','A','A'] c' = 1 :=
  claim_C8_codon_neighbors ['A','A','A'] (by decide)

/-- Claim C2 (the code contradicts it): `cache = set(codon)` builds the set
of the source string's characters, not `{source}`, so the source codon is
not initially visited; on the constant table sending every codon to `'K'`
with source `AAA`, after the seed expansion (whose first enqueued codon is
`("UAA", 1)`) the very first dequeue re-discovers and re-enqueues the source
`AAA` itself at level 2 for a second expansion. -/
theorem claim_C2_source_not_cached :
    (['A','A','A'] : Codon) ∉ init_cache ['A','A','A'] ∧
    (expand (fun _ => 'K') ['A','A','A'] 1 ⟨[], [], init_cache ['A','A','A']⟩).queue.head? =
      some (['U','A','A'], 1) ∧
    ((['A','A','A'] : Codon), 2) ∈
      (expand (fun _ => 'K') ['U','A','A'] 2
        ⟨(expand (fun _ => 'K') ['A','A','A'] 1 ⟨[], [], init_cache ['A','A','A']⟩).neighbors,
         (expand (fun _ => 'K') ['A','A','A'] 1 ⟨[], [], init_cache ['A','A','A']⟩).queue.tail,
         (expand (fun _ => 'K') ['A','A','A'] 1 ⟨[], [], init_cache ['A','A','A']⟩).cache⟩).queue := by
  decide

/-- Claim C4 (the code contradicts it): `promiscuity` skips exactly the
entries whose residue is the *null* `'0'` (its `AA == '0'` test), not the
stop `'*'` its comment announces: the stop-only table `{"UAA": "*"}`
collapses to a table assigning `'*'` to the wobble targets `UAA` and `UAG`,
while the null-only table `{"AAA": "0"}` is skipped entirely, returning the
untouched all-null table. -/
theorem claim_C4_null_skipped_stop_processed :
    (promiscuity [(['U','A','A'], '*')] false).toOption.map
        (fun d => (dict_lookup d ['U','A','A'], dict_lookup d ['U','A','G'])) =
      some (some (.sym '*'), some (.sym '*')) ∧
    (promiscuity [(['A','A','A'], '0')] false).toOption =
      some (triplet_codons.map (fun codon => (codon, Resi.sym '0'))) := by
  decide

/-- Claim C10: every pair of `get_mut_pairs` has its first codon a key of
the table and its second obtained by substituting one position of the first
with a different letter drawn from the fixed RNA alphabet `rNTPs`, whatever
letters the table's own codons use; the target need not be a key — for the
single-codon DNA table over `GAT` the output contains `(GAT, GAU)` whose
target `GAU` is absent from the table's domain. -/
theorem claim_C10_mut_pairs_shape :
    (∀ (keys : List Codon) (c1 c2 : Codon), (c1, c2) ∈ get_mut_pairs keys →
      c1 ∈ keys ∧ ∃ i base nt, c1[i]? = some base ∧ nt ∈ rNTPs ∧ nt ≠ base ∧
        c2 = c1.take i ++ [nt] ++ c1.drop (i + 1)) ∧
    ((['G','A','T'], ['G','A','U']) ∈ get_mut_pairs [['G','A','T']] ∧
      (['G','A','U'] : Codon) ∉ [(['G','A','T'] : Codon)]) := by
  constructor
  · intro keys c1 c2 hmem
    rcases mem_get_mut_pairs.mp hmem with ⟨codon, hc, hm⟩
    rcases mem_mut_pairs_of.mp hm with ⟨h1, i, base, nt, hget, hnt, hne, h2⟩
    simp only at h1 h2
    subst h1
    exact ⟨hc, i, base, nt, hget, hnt, hne, h2⟩
  · exact ⟨by decide, by decide⟩

/-- Witness for C10 at the DNA table over `GAT` and its pair `(GAT, GAU)`. -/
theorem claim_C10_mut_pairs_shape_witness :
    (['G','A','T'] : Codon) ∈ [(['G','A','T'] : Codon)] ∧
    ∃ i base nt, (['G','A','T'] : Codon)[i]? = some base ∧ nt ∈ rNTPs ∧ nt ≠ base ∧
      (['G','A','U'] : Codon) =
        (['G','A','T'] : Codon).take i ++ [nt] ++ (['G','A','T'] : Codon).drop (i + 1) :=
  claim_C10_mut_pairs_shape.1 [['G','A','T']] ['G','A','T'] ['G','A','U'] (by decide)

/-- Claim C9: whenever `mutability` returns a value it is nonnegative; it
returns exactly `0` whenever the table has zero nonsynonymous mutation
pairs, and in particular on every one-residue constant table, rather than
failing. -/
theorem claim_C9_mutability_nonneg :
    (∀ (keys : List Codon) (table : Codon → Char) (m : ℚ),
        mutability keys table = some m → 0 ≤ m) ∧
    (∀ (keys : List Codon) (table : Codon → Char),
        ((get_mut_pairs keys).filter (fun pr => ¬ table pr.1 = table pr.2)).card = 0 →
        mutability keys table = some 0) ∧
    (∀ (keys : List Codon) (r : Char), mutability keys (fun _ => r) = some 0) := by
  have h0 : ∀ (keys : List Codon) (table : Codon → Char),
      ((get_mut_pairs keys).filter (fun pr => ¬ table pr.1 = table pr.2)).card = 0 →
      mutability keys table = some 0 := by
    intro keys table hcard
    have hempty : (get_mut_pairs keys).filter (fun pr => ¬ table pr.1 = table pr.2) = ∅ :=
      Finset.card_eq_zero.mp hcard
    unfold mutability
    dsimp only
    rw [hempty]
    simp
  refine ⟨?_, h0, ?_⟩
  · intro keys table m hm
    unfold mutability at hm
    dsimp only at hm
    split at hm
    · split at hm
      · simp only [Option.some.injEq] at hm
        exact le_of_eq hm
      · simp only [Option.some.injEq] at hm
        subst hm
        apply div_nonneg
        · exact Finset.sum_nonneg fun pr _ => abs_nonneg _
        · exact Nat.cast_nonneg _
    · exact absurd hm (by simp)
  · intro keys r
    apply h0
    rw [Finset.card_eq_zero, Finset.filter_eq_empty_iff]
    intro pr _
    simp

/-- Witness for C9 at the one-codon table `{"UUU": "F"}` read through the
constant residue function. -/
theorem claim_C9_mutability_nonneg_witness :
    (0 : ℚ) ≤ 0 ∧ mutability [['U','U','U']] (fun _ => 'F') = some 0 :=
  ⟨claim_C9_mutability_nonneg.1 [['U','U','U']] (fun _ => 'F') 0
      (claim_C9_mutability_nonneg.2.2 [['U','U','U']] 'F'),
    claim_C9_mutability_nonneg.2.2 [['U','U','U']] 'F'⟩

/-- Lookup of a residue's list in the `resi_dist_dict` under construction. -/
def rlookup (d : List (Char × List (Char × Nat))) (r : Char) :
    Option (List (Char × Nat)) :=
  (d.find? (fun p => p.1 = r)).map (fun p => p.2)

/-- The concatenation, in table key order, of the translated connectivity
records of all the codons encoding residue `r`. -/
def resi_concat (table : Codon → Char) (r : Char) (keys : List Codon) :
    List (Char × Nat) :=
  (keys.filter (fun c => table c = r)).flatMap
    (fun c => (codon_record table c).map (fun q => (table q.1, q.2)))

theorem rlookup_cons_of_ne {k : Char} {v : List (Char × Nat)}
    {d : List (Char × List (Char × Nat))} {r : Char} (hr : ¬ r = k) :
    rlookup ((k, v) :: d) r = rlookup d r := by
  unfold rlookup
  rw [List.find?_cons_of_neg]
  simp only [decide_eq_true_eq]
  exact fun h => hr h.symm

theorem rlookup_cons_self {k : Char} {v : List (Char × Nat)}
    {d : List (Char × List (Char × Nat))} :
    rlookup ((k, v) :: d) k = some v := by
  unfold rlookup
  rw [List.find?_cons_of_pos]
  · rfl
  · simp

theorem rlookup_map_append (d : List (Char × List (Char × Nat))) (A1 : Char)
    (ys : List (Char × Nat)) (r : Char) :
    rlookup (d.map (fun p => if p.1 = A1 then (p.1, p.2 ++ ys) else p)) r =
      if r = A1 then (rlookup d r).map (fun v => v ++ ys) else rlookup d r := by
  induction d with
  | nil => simp [rlookup]
  | cons kv d ih =>
    obtain ⟨k, v⟩ := kv
    simp only [List.map_cons]
    by_cases hk : k = A1
    · rw [if_pos hk]
      by_cases hr : r = k
      · subst hr
        rw [if_pos hk, rlookup_cons_self, rlookup_cons_self]
        rfl
      · rw [rlookup_cons_of_ne hr, rlookup_cons_of_ne hr, ih]
    · rw [if_neg hk]
      by_cases hr : r = k
      · subst hr
        rw [if_neg hk, rlookup_cons_self, rlookup_cons_self]
      · rw [rlookup_cons_of_ne hr, rlookup_cons_of_ne hr, ih]

theorem rlookup_isSome_iff_any (d : List (Char × List (Char × Nat))) (r : Char) :
    (rlookup d r).isSome = d.any (fun p => p.1 = r) := by
  induction d with
  | nil => rfl
  | cons kv d ih =>
    obtain ⟨k, v⟩ := kv
    by_cases hr : r = k
    · subst hr
      rw [rlookup_cons_self]
      simp
    · rw [rlookup_cons_of_ne hr, ih]
      simp only [List.any_cons]
      rw [show (decide (k = r)) = false from
        decide_eq_false (fun h => hr h.symm)]
      simp

theorem rlookup_dict_append (d : List (Char × List (Char × Nat))) (A1 : Char)
    (ys : List (Char × Nat)) (r : Char) :
    rlookup (dict_append d A1 ys) r =
      if r = A1 then some ((rlookup d A1).getD [] ++ ys) else rlookup d r := by
  unfold dict_append
  by_cases hany : d.any (fun p => p.1 = A1) = true
  · rw [if_pos hany, rlookup_map_append]
    by_cases hr : r = A1
    · subst hr
      rw [if_pos rfl, if_pos rfl]
      have hsome : (rlookup d r).isSome := by rw [rlookup_isSome_iff_any]; exact hany
      rcases hs : rlookup d r with _ | v
      · rw [hs] at hsome
        exact absurd hsome (by simp)
      · simp
    · rw [if_neg hr, if_neg hr]
  · rw [if_neg hany]
    have hnone : rlookup d A1 = none := by
      have := rlookup_isSome_iff_any d A1
      rw [eq_false_of_ne_true hany] at this
      exact Option.not_isSome_iff_eq_none.mp (by simp [this])
    have hfind : List.find? (fun p => p.1 = A1) d = none :=
      Option.map_eq_none.mp hnone
    by_cases hr : r = A1
    · subst hr
      rw [if_pos rfl, hnone]
      unfold rlookup
      rw [List.find?_append, hfind]
      rw [List.find?_cons_of_pos _ (by simp)]
      simp
    · rw [if_neg hr]
      unfold rlookup
      rw [List.find?_append]
      have hlast : List.find? (fun p => p.1 = r) [(A1, ys)] = none := by
        rw [List.find?_cons_of_neg]
        · rfl
        · simp only [decide_eq_true_eq]
          exact fun h => hr h.symm
      rw [hlast, Option.or_none]

theorem resi_concat_cons (table : Codon → Char) (r : Char) (c : Codon)
    (keys : List Codon) :
    resi_concat table r (c :: keys) =
      if table c = r then
        (codon_record table c).map (fun q => (table q.1, q.2)) ++ resi_concat table r keys
      else resi_concat table r keys := by
  unfold resi_concat
  rw [List.filter_cons]
  by_cases h : table c = r
  · rw [if_pos (by simpa using h), if_pos h, List.flatMap_cons]
  · rw [if_neg (by simpa using h), if_neg h]

theorem resi_fold_lookup (table : Codon → Char) (keys : List Codon)
    (acc : List (Char × List (Char × Nat))) (r : Char) :
    rlookup (keys.foldl (fun acc c =>
        dict_append acc (table c) ((codon_record table c).map (fun q => (table q.1, q.2)))) acc) r =
      if (rlookup acc r).isSome ∨ keys.any (fun c => table c = r) then
        some ((rlookup acc r).getD [] ++ resi_concat table r keys)
      else none := by
  induction keys generalizing acc with
  | nil =>
    rcases h : rlookup acc r with _ | v
    · simp [resi_concat, h]
    · simp [resi_concat, h]
  | cons c keys ih =>
    rw [List.foldl_cons, ih, rlookup_dict_append, resi_concat_cons]
    by_cases hc : table c = r
    · subst hc
      simp [List.append_assoc]
    · rw [if_neg (fun h : r = table c => hc (Eq.symm h)), if_neg hc]
      have hany : (c :: keys).any (fun c => table c = r) = keys.any (fun c => table c = r) := by
        simp only [List.any_cons]
        rw [decide_eq_false hc]
        simp
      rw [hany]

theorem keys_dict_append (d : List (Char × List (Char × Nat))) (A1 : Char)
    (ys : List (Char × Nat)) :
    (dict_append d A1 ys).map Prod.fst =
      if d.any (fun p => p.1 = A1) then d.map Prod.fst else d.map Prod.fst ++ [A1] := by
  unfold dict_append
  by_cases h : d.any (fun p => p.1 = A1) = true
  · rw [if_pos h, if_pos h, List.map_map]
    apply List.map_congr_left
    intro p _
    by_cases hp : p.1 = A1 <;> simp [hp, Function.comp]
  · rw [if_neg h, if_neg h, List.map_append]
    rfl

theorem nodup_dict_append {d : List (Char × List (Char × Nat))} {A1 : Char}
    {ys : List (Char × Nat)} (h : (d.map Prod.fst).Nodup) :
    ((dict_append d A1 ys).map Prod.fst).Nodup := by
  rw [keys_dict_append]
  by_cases hany : d.any (fun p => p.1 = A1) = true
  · rw [if_pos hany]
    exact h
  · rw [if_neg hany]
    have hnotin : A1 ∉ d.map Prod.fst := by
      intro hmem
      rcases List.mem_map.mp hmem with ⟨p, hp, hfst⟩
      have := List.any_eq_false.mp (Bool.eq_false_iff.mpr hany) p hp
      simp only [decide_eq_true_eq] at this
      exact this hfst
    rw [List.nodup_append]
    exact ⟨h, List.nodup_singleton A1, by simpa [List.disjoint_singleton] using hnotin⟩

theorem nodup_resi_fold (table : Codon → Char) (keys : List Codon)
    (acc : List (Char × List (Char × Nat))) (h : (acc.map Prod.fst).Nodup) :
    ((keys.foldl (fun acc c =>
        dict_append acc (table c) ((codon_record table c).map (fun q => (table q.1, q.2)))) acc).map
      Prod.fst).Nodup := by
  induction keys generalizing acc with
  | nil => exact h
  | cons c keys ih => exact ih _ (nodup_dict_append h)

theorem rlookup_of_mem {d : List (Char × List (Char × Nat))}
    (hnodup : (d.map Prod.fst).Nodup) {r : Char} {l : List (Char × Nat)}
    (hm : (r, l) ∈ d) : rlookup d r = some l := by
  induction d with
  | nil => cases hm
  | cons kv d ih =>
    obtain ⟨k, v⟩ := kv
    rcases List.mem_cons.mp hm with heq | htail
    · obtain ⟨h1, h2⟩ := Prod.mk.injEq .. ▸ heq
      injection heq with h1 h2
      subst h1
      subst h2
      exact rlookup_cons_self
    · have hk : ¬ r = k := by
        intro hrk
        subst hrk
        have : r ∈ d.map Prod.fst := List.mem_map.mpr ⟨(r, l), htail, rfl⟩
        simp only [List.map_cons, List.nodup_cons] at hnodup
        exact hnodup.1 this
      rw [rlookup_cons_of_ne hk]
      exact ih (by simpa [List.map_cons, List.nodup_cons] using hnodup.of_cons) htail

theorem get_resi_connectivity_lookup (keys : List Codon) (table : Codon → Char)
    (r : Char) :
    rlookup (get_resi_connectivity keys table) r =
      if keys.any (fun c => table c = r) then some (resi_concat table r keys) else none := by
  unfold get_resi_connectivity get_codon_connectivity
  rw [List.foldl_map]
  rw [show (fun (x : List (Char × List (Char × Nat))) (y : Codon) =>
        dict_append x (table ((fun codon => (codon, codon_record table codon)) y).1)
          (((fun codon => (codon, codon_record table codon)) y).2.map (fun q => (table q.1, q.2)))) =
      (fun acc c => dict_append acc (table c) ((codon_record table c).map (fun q => (table q.1, q.2))))
    from rfl]
  rw [resi_fold_lookup]
  simp [rlookup]

theorem resi_concat_length (table : Codon → Char) (r : Char) (keys : List Codon) :
    (resi_concat table r keys).length =
      ((keys.filter (fun c => table c = r)).map
        (fun c => (codon_record table c).length)).sum := by
  unfold resi_concat
  rw [List.length_flatMap]
  congr 1
  apply List.map_congr_left
  intro c _
  simp [Function.comp]

/-- Claim C7: `get_resi_connectivity` maps each residue of the table to the
concatenation — without deduplication, in key order — of the translated
`(neighbor residue, distance)` records of all the codons encoding it, so
each residue's adjacency list length equals the sum of the boundary-list
lengths of its codons; and every residue of a key is mapped. -/
theorem claim_C7_resi_aggregation (keys : List Codon) (table : Codon → Char) :
    (∀ r l, (r, l) ∈ get_resi_connectivity keys table →
      l = resi_concat table r keys ∧
      l.length = ((keys.filter (fun c => table c = r)).map
        (fun c => (codon_record table c).length)).sum) ∧
    (∀ c ∈ keys, ∃ l, (table c, l) ∈ get_resi_connectivity keys table) := by
  have hnodup : ((get_resi_connectivity keys table).map Prod.fst).Nodup := by
    unfold get_resi_connectivity get_codon_connectivity
    rw [List.foldl_map]
    exact nodup_resi_fold table keys [] (by simp)
  constructor
  · intro r l hm
    have hlook := rlookup_of_mem hnodup hm
    rw [get_resi_connectivity_lookup] at hlook
    by_cases hany : keys.any (fun c => table c = r) = true
    · rw [if_pos hany] at hlook
      injection hlook with hl
      subst hl
      exact ⟨rfl, resi_concat_length table r keys⟩
    · rw [if_neg hany] at hlook
      cases hlook
  · intro c hc
    have hany : keys.any (fun c' => table c' = table c) = true :=
      List.any_eq_true.mpr ⟨c, hc, decide_eq_true rfl⟩
    have hlook := get_resi_connectivity_lookup keys table (table c)
    rw [if_pos hany] at hlook
    unfold rlookup at hlook
    rcases Option.map_eq_some'.mp hlook with ⟨q, hfind, hq2⟩
    have hqmem := List.mem_of_find?_eq_some hfind
    have hq1 : q.1 = table c := by simpa using List.find?_some hfind
    refine ⟨q.2, ?_⟩
    have : q = (table c, q.2) := by
      obtain ⟨q1, q2⟩ := q
      simp only at hq1
      rw [hq1]
    rw [← this]
    exact hqmem

/-- A small concrete table for witnesses: `AAA` encodes `'K'`, every other
codon `'N'`. -/
def demo_table : Codon → Char :=
  fun c => if c = ['A','A','A'] then 'K' else 'N'

/-- Witness for C7 at the one-key table over source `AAA` under
`demo_table`: the `'K'` row is the translated record of `AAA` (nine `(N, 1)`
entries) and its length is the record's length. -/
theorem claim_C7_resi_aggregation_witness :
    (List.replicate 9 (('N' : Char), (1 : Nat)) = resi_concat demo_table 'K' [['A','A','A']] ∧
      (List.replicate 9 (('N' : Char), (1 : Nat))).length =
        (([(['A','A','A'] : Codon)].filter (fun c => demo_table c = 'K')).map
          (fun c => (codon_record demo_table c).length)).sum) ∧
    ∃ l, (demo_table ['A','A','A'], l) ∈ get_resi_connectivity [['A','A','A']] demo_table :=
  ⟨(claim_C7_resi_aggregation [['A','A','A']] demo_table).1 'K'
      (List.replicate 9 (('N' : Char), (1 : Nat))) (by decide),
    (claim_C7_resi_aggregation [['A','A','A']] demo_table).2 ['A','A','A'] (by decide)⟩

instance {ε α : Type} [DecidableEq ε] [DecidableEq α] : DecidableEq (Except ε α) := fun a b =>
  match a, b with
  | .error e, .error f =>
    if h : e = f then .isTrue (by rw [h]) else .isFalse (fun hc => h (by injection hc))
  | .error _, .ok _ => .isFalse (fun hc => Except.noConfusion hc)
  | .ok _, .error _ => .isFalse (fun hc => Except.noConfusion hc)
  | .ok a, .ok b =>
    if h : a = b then .isTrue (by rw [h]) else .isFalse (fun hc => h (by injection hc))

theorem foldlM_error_append {σ α : Type} (f : σ → α → Except String σ)
    (l₁ l₂ : List α) (s : σ) (e : String) (h : l₁.foldlM f s = .error e) :
    (l₁ ++ l₂).foldlM f s = .error e := by
  induction l₁ generalizing s with
  | nil =>
    rw [List.foldlM_nil] at h
    cases h
  | cons a l₁ ih =>
    rw [List.cons_append, List.foldlM_cons]
    rw [List.foldlM_cons] at h
    rcases hf : f s a with e' | s' <;> rw [hf] at h
    · exact h
    · exact ih s' h

/-- Claim C3: with ambiguity disallowed, a wobble target codon already
holding anything other than the entry's residue or the null `'0'` makes the
processing step fail with the ambiguity `ValueError`; that failure aborts
the remaining targets and the remaining table entries, so no partial table
is ever returned; and `is_ambiguous` reports `true` exactly when the
ambiguity-disallowed collapse fails. -/
theorem claim_C3_ambiguity_fail_fast :
    (∀ (AA : Char) (d : List (Codon × Resi)) (c : Codon) (slot : Resi),
      dict_lookup d c = some slot → slot ≠ .sym AA → slot ≠ .sym '0' →
      promis_step false AA d c = .error ambiguity_error) ∧
    (∀ (AA : Char) (cs₁ cs₂ : List Codon) (d : List (Codon × Resi)) (e : String),
      cs₁.foldlM (promis_step false AA) d = .error e →
      (cs₁ ++ cs₂).foldlM (promis_step false AA) d = .error e) ∧
    (∀ (pre post : List (Codon × Char)) (e : String),
      promiscuity pre false = .error e →
      promiscuity (pre ++ post) false = .error e) ∧
    (∀ table : List (Codon × Char),
      is_ambiguous table = true ↔ ∃ e, promiscuity table false = .error e) := by
  refine ⟨?_, ?_, ?_, ?_⟩
  · intro AA d c slot hsl h1 h2
    unfold promis_step
    rw [hsl]
    dsimp only
    rw [if_pos (not_or.mpr ⟨h1, h2⟩), if_pos (by simp)]
  · intro AA cs₁ cs₂ d e h
    exact foldlM_error_append _ cs₁ cs₂ d e h
  · intro pre post e h
    exact foldlM_error_append _ pre post _ e h
  · intro table
    unfold is_ambiguous
    rcases h : promiscuity table false with e | t
    · simp [h]
    · simp [h]

/-- Witness for C3: the table `{"UUC": "F", "UUU": "L"}` conflicts at
target `UUU`; the failure survives appending a further entry. -/
theorem claim_C3_ambiguity_fail_fast_witness :
    promiscuity ([(['U','U','C'], 'F'), (['U','U','U'], 'L')] ++ [(['C','G','U'], 'R')]) false =
      .error ambiguity_error :=
  claim_C3_ambiguity_fail_fast.2.2.1 [(['U','U','C'], 'F'), (['U','U','U'], 'L')]
    [(['C','G','U'], 'R')] ambiguity_error (by decide)

/-- No slot of a promiscuity output dict is an ambiguous tuple. -/
def AmbFree (d : List (Codon × Resi)) : Prop :=
  ∀ p ∈ d, ∀ cs, p.2 ≠ Resi.amb cs

theorem promis_step_ok_true {AA : Char} {d d' : List (Codon × Resi)} {c : Codon}
    (h : promis_step false AA d c = .ok d') :
    promis_step true AA d c = .ok d' ∧ (AmbFree d → AmbFree d') := by
  unfold promis_step at h ⊢
  rcases hl : dict_lookup d c with _ | slot
  · rw [hl] at h
    cases h
  · rw [hl] at h
    dsimp only at h ⊢
    by_cases hcond : ¬ (slot = Resi.sym AA ∨ slot = Resi.sym '0')
    · rw [if_pos hcond, if_pos (by simp)] at h
      cases h
    · rw [if_neg hcond] at h ⊢
      injection h with h
      subst h
      refine ⟨rfl, ?_⟩
      intro hd p hp cs
      unfold dict_set at hp
      rcases List.mem_map.mp hp with ⟨q, hq, hqe⟩
      by_cases hqc : q.1 = c
      · rw [if_pos hqc] at hqe
        rw [← hqe]
        intro habs
        cases habs
      · rw [if_neg hqc] at hqe
        rw [← hqe]
        exact hd q hq cs

theorem promis_targets_ok_true {AA : Char} (cs : List Codon) :
    ∀ (d d' : List (Codon × Resi)),
      cs.foldlM (promis_step false AA) d = .ok d' →
      cs.foldlM (promis_step true AA) d = .ok d' ∧ (AmbFree d → AmbFree d') := by
  induction cs with
  | nil =>
    intro d d' h
    rw [List.foldlM_nil] at h
    injection h with h
    subst h
    exact ⟨rfl, fun hd => hd⟩
  | cons c cs ih =>
    intro d d' h
    rw [List.foldlM_cons] at h
    rcases hf : promis_step false AA d c with e | d1 <;> rw [hf] at h
    · cases h
    · obtain ⟨htrue, hamb1⟩ := promis_step_ok_true hf
      obtain ⟨htrue2, hamb2⟩ := ih d1 d' h
      refine ⟨?_, fun hd => hamb2 (hamb1 hd)⟩
      rw [List.foldlM_cons, htrue]
      exact htrue2

theorem promis_entry_ok_true {d d' : List (Codon × Resi)} {entry : Codon × Char}
    (h : promis_entry false d entry = .ok d') :
    promis_entry true d entry = .ok d' ∧ (AmbFree d → AmbFree d') := by
  unfold promis_entry at h ⊢
  dsimp only at h ⊢
  by_cases h0 : entry.2 = '0'
  · rw [if_pos h0] at h ⊢
    injection h with h
    subst h
    exact ⟨rfl, fun hd => hd⟩
  · rw [if_neg h0] at h ⊢
    rcases hgl : entry.1.getLast? with _ | last
    · rw [hgl] at h
      cases h
    · rw [hgl] at h
      dsimp only at h ⊢
      rcases hbp : basepair_WC last with _ | paired
      · rw [hbp] at h
        cases h
      · rw [hbp] at h
        dsimp only at h ⊢
        rcases hw : wobble_WC paired with _ | wobble
        · rw [hw] at h
          cases h
        · rw [hw] at h
          dsimp only at h ⊢
          exact promis_targets_ok_true _ _ _ h

theorem promis_table_ok_true (table : List (Codon × Char)) :
    ∀ (d d' : List (Codon × Resi)),
      table.foldlM (promis_entry false) d = .ok d' →
      table.foldlM (promis_entry true) d = .ok d' ∧ (AmbFree d → AmbFree d') := by
  induction table with
  | nil =>
    intro d d' h
    rw [List.foldlM_nil] at h
    injection h with h
    subst h
    exact ⟨rfl, fun hd => hd⟩
  | cons entry table ih =>
    intro d d' h
    rw [List.foldlM_cons] at h
    rcases hf : promis_entry false d entry with e | d1 <;> rw [hf] at h
    · cases h
    · obtain ⟨htrue, hamb1⟩ := promis_entry_ok_true hf
      obtain ⟨htrue2, hamb2⟩ := ih d1 d' h
      refine ⟨?_, fun hd => hamb2 (hamb1 hd)⟩
      rw [List.foldlM_cons, htrue]
      exact htrue2

/-- Claim C6: if the ambiguity-disallowed collapse of a table succeeds (the
table induces no conflicts), the ambiguity-allowed collapse returns the very
same table, and no slot of the result is an ambiguous tuple. -/
theorem claim_C6_promis_idempotent (table : List (Codon × Char))
    (t : List (Codon × Resi)) (h : promiscuity table false = .ok t) :
    promiscuity table true = .ok t ∧ ∀ p ∈ t, ∀ cs, p.2 ≠ Resi.amb cs := by
  unfold promiscuity at h ⊢
  obtain ⟨htrue, hamb⟩ := promis_table_ok_true table _ t h
  refine ⟨htrue, hamb ?_⟩
  intro p hp cs
  rcases List.mem_map.mp hp with ⟨c, _, hc⟩
  rw [← hc]
  intro habs
  cases habs

/-- Witness for C6 at the conflict-free table `{"UUC": "F"}`. -/
theorem claim_C6_promis_idempotent_witness :
    promiscuity [(['U','U','C'], 'F')] true =
      .ok ((promiscuity [(['U','U','C'], 'F')] false).toOption.getD []) ∧
    ∀ p ∈ (promiscuity [(['U','U','C'], 'F')] false).toOption.getD [],
      ∀ cs, p.2 ≠ Resi.amb cs :=
  claim_C6_promis_idempotent [(['U','U','C'], 'F')] _ (by decide)

theorem foldl_insert_eq_union {α : Type} [DecidableEq α] (l : List α) (s : Finset α) :
    l.foldl (fun mp pr => insert pr mp) s = l.toFinset ∪ s := by
  induction l generalizing s with
  | nil => simp
  | cons a l ih =>
    rw [List.foldl_cons, ih]
    ext x
    simp only [Finset.mem_union, List.mem_toFinset, List.mem_cons, Finset.mem_insert]
    tauto

theorem get_mut_pairs_eq_toFinset (keys : List Codon) :
    get_mut_pairs keys = (keys.flatMap mut_pairs_of).toFinset := by
  have main : ∀ (ks : List Codon) (s : Finset (Codon × Codon)),
      ks.foldl (fun mp codon => (mut_pairs_of codon).foldl (fun mp pr => insert pr mp) mp) s =
        (ks.flatMap mut_pairs_of).toFinset ∪ s := by
    intro ks
    induction ks with
    | nil => simp
    | cons c ks ih =>
      intro s
      rw [List.foldl_cons, foldl_insert_eq_union, ih, List.flatMap_cons, List.toFinset_append]
      ext x
      simp only [Finset.mem_union]
      tauto
  have := main keys ∅
  rw [Finset.union_empty] at this
  exact this

theorem toFinset_flatMap_eq_biUnion {α β : Type} [DecidableEq α] [DecidableEq β]
    (l : List α) (f : α → List β) :
    (l.flatMap f).toFinset = l.toFinset.biUnion (fun a => (f a).toFinset) := by
  induction l with
  | nil => simp
  | cons a l ih =>
    rw [List.flatMap_cons, List.toFinset_append, ih, List.toFinset_cons,
      Finset.biUnion_insert]

theorem mut_pairs_of_fst {codon : Codon} {pr : Codon × Codon}
    (h : pr ∈ mut_pairs_of codon) : pr.1 = codon :=
  (mem_mut_pairs_of.mp h).1

theorem mut_pairs_of_disjoint {x y : Codon} (hxy : x ≠ y) :
    Disjoint (mut_pairs_of x).toFinset (mut_pairs_of y).toFinset := by
  rw [Finset.disjoint_left]
  intro pr hx hy
  exact hxy ((mut_pairs_of_fst (List.mem_toFinset.mp hx)).symm.trans
    (mut_pairs_of_fst (List.mem_toFinset.mp hy)))

theorem mut_pairs_of_card_nine : ∀ c ∈ triplet_codons, (mut_pairs_of c).toFinset.card = 9 := by
  decide

theorem triplet_len_three : ∀ c ∈ triplet_codons, c.length = 3 := by
  decide

theorem set_add_fold_spec (l : List Char) :
    ∀ s : List Char, ((l.foldl set_add s).toFinset = s.toFinset ∪ l.toFinset) ∧
      (s.Nodup → (l.foldl set_add s).Nodup) := by
  induction l with
  | nil => intro s; simp
  | cons a l ih =>
    intro s
    rw [List.foldl_cons]
    obtain ⟨ih1, ih2⟩ := ih (set_add s a)
    constructor
    · rw [ih1]
      unfold set_add
      by_cases ha : a ∈ s
      · rw [if_pos ha]
        ext x
        simp only [Finset.mem_union, List.mem_toFinset, List.mem_cons]
        constructor
        · tauto
        · rintro (hx | (rfl | hx)) <;> tauto
      · rw [if_neg ha]
        ext x
        simp only [Finset.mem_union, List.mem_toFinset, List.mem_append,
          List.mem_singleton, List.mem_cons]
        tauto
    · intro hs
      apply ih2
      unfold set_add
      by_cases ha : a ∈ s
      · rw [if_pos ha]
        exact hs
      · rw [if_neg ha]
        rw [List.nodup_append]
        exact ⟨hs, List.nodup_singleton a, by simpa [List.disjoint_singleton] using ha⟩

theorem alphabet_fold_spec (keys : List Codon) :
    ∀ s : List Char,
      ((keys.foldl (fun s codon => codon.foldl set_add s) s).toFinset =
        s.toFinset ∪ (keys.flatMap id).toFinset) ∧
      (s.Nodup → (keys.foldl (fun s codon => codon.foldl set_add s) s).Nodup) := by
  induction keys with
  | nil => intro s; simp
  | cons c keys ih =>
    intro s
    rw [List.foldl_cons]
    obtain ⟨ih1, ih2⟩ := ih (c.foldl set_add s)
    obtain ⟨h1, h2⟩ := set_add_fold_spec c s
    constructor
    · rw [ih1, h1, List.flatMap_cons, List.toFinset_append]
      ext x
      simp only [Finset.mem_union, id]
      tauto
    · exact fun hs => ih2 (h2 hs)

set_option maxRecDepth 40000 in
/-- Claim C5: for every table whose key list is (a permutation of) the full
64-codon RNA triplet domain, the closed form `mut_pair_num` equals the
cardinality of the set `get_mut_pairs` returns: both are
`(4^3) * 3 * (4-1) = 576`. -/
theorem claim_C5_mut_pair_num (keys : List Codon) (h : keys.Perm triplet_codons) :
    mut_pair_num keys = (get_mut_pairs keys).card := by
  have hne : keys ≠ [] := by
    intro habs
    have := h.length_eq
    rw [habs] at this
    exact absurd this.symm (by decide)
  have ha : (keys.foldl (fun s codon => codon.foldl set_add s) []).length = 4 := by
    obtain ⟨h1, h2⟩ := alphabet_fold_spec keys ([] : List Char)
    rw [← List.toFinset_card_of_nodup (h2 List.nodup_nil), h1]
    have hperm : (keys.flatMap id).Perm (triplet_codons.flatMap id) :=
      List.Perm.flatMap_right id h
    rw [Finset.card_union_of_disjoint (by simp), List.toFinset_card_of_nodup List.nodup_nil]
    rw [perm_toFinset hperm]
    decide
  have hl : (keys.headD []).length = 3 := by
    rcases hk : keys with _ | ⟨k, ks⟩
    · exact absurd hk hne
    · have hkmem : k ∈ keys := by rw [hk]; exact List.mem_cons_self k ks
      have : k ∈ triplet_codons := h.mem_iff.mp hkmem
      simpa using triplet_len_three k this
  have hcard : (get_mut_pairs keys).card = 576 := by
    rw [get_mut_pairs_eq_toFinset,
      perm_toFinset (List.Perm.flatMap_right mut_pairs_of h),
      toFinset_flatMap_eq_biUnion,
      Finset.card_biUnion (fun x _ y _ hxy => mut_pairs_of_disjoint hxy)]
    have : ∀ c ∈ triplet_codons.toFinset, (mut_pairs_of c).toFinset.card = 9 :=
      fun c hc => mut_pairs_of_card_nine c (List.mem_toFinset.mp hc)
    rw [Finset.sum_congr rfl this, Finset.sum_const, smul_eq_mul]
    have h64 : triplet_codons.toFinset.card = 64 := by decide
    rw [h64]
  unfold mut_pair_num
  dsimp only
  rw [ha, hl, hcard]
  decide

/-- Witness for C5 at the canonical 64-triplet key list itself. -/
theorem claim_C5_mut_pair_num_witness :
    mut_pair_num triplet_codons = (get_mut_pairs triplet_codons).card :=
  claim_C5_mut_pair_num triplet_codons (List.Perm.refl triplet_codons)

/-- A path of point mutations from the source `s` whose nodes — except
possibly the final one — all encode the source's residue (the
"same-residue plateau"); the number indexes its mutation count. -/
inductive PlateauPath (table : Codon → Char) (s : Codon) : Codon → Nat → Prop where
  | nil : PlateauPath table s s 0
  | cons {c c' : Codon} {n : Nat} : PlateauPath table s c n → table c = table s →
      c' ∈ point_mutants c → PlateauPath table s c' (n + 1)

theorem path_zero {table : Codon → Char} {s c : Codon}
    (h : PlateauPath table s c 0) : c = s := by
  cases h
  rfl

theorem point_mutants_length {c c' : Codon} (h : c' ∈ point_mutants c) :
    c'.length = c.length := by
  unfold point_mutants at h
  rcases List.mem_flatMap.mp h with ⟨⟨i, base⟩, henum, hmm⟩
  rcases List.mem_map.mp hmm with ⟨nt, _, heq⟩
  rw [List.mem_enum_iff_getElem?] at henum
  have hi : i < c.length := by
    rcases List.getElem?_eq_some.mp henum with ⟨hlt, _⟩
    exact hlt
  rw [← heq]
  simp only [List.length_append, List.length_take, List.length_drop,
    List.length_singleton]
  omega

theorem path_length {table : Codon → Char} {s c : Codon} {n : Nat}
    (h : PlateauPath table s c n) : c.length = s.length := by
  induction h with
  | nil => rfl
  | cons _ _ hm ih => exact (point_mutants_length hm).trans ih

theorem classify_foldSpec (table : Codon → Char) (cod : Codon) (L : Nat)
    (ms : List Codon) :
    ∀ st : BFSState, ∃ (qnew rnew : List (Codon × Nat)) (cnew : List Codon),
      ms.foldl (classify table cod L) st =
        ⟨st.neighbors ++ rnew, st.queue ++ qnew, cnew ++ st.cache⟩ ∧
      (∀ b ∈ ms, b ∈ cnew ++ st.cache) ∧
      (∀ p ∈ qnew, p.2 = L ∧ table p.1 = table cod ∧ p.1 ∉ st.cache ∧ p.1 ∈ ms) ∧
      (∀ r ∈ rnew, r.2 = L ∧ table r.1 ≠ table cod ∧ r.1 ∉ st.cache ∧ r.1 ∈ ms) ∧
      (∀ y ∈ cnew, (∃ l, (y, l) ∈ qnew) ∨ (∃ l, (y, l) ∈ rnew)) := by
  induction ms with
  | nil =>
    intro st
    refine ⟨[], [], [], ?_, ?_, ?_, ?_, ?_⟩ <;> simp
  | cons m ms ih =>
    intro st
    rw [List.foldl_cons]
    by_cases hmem : m ∈ st.cache
    · have hst : classify table cod L st m = st := by
        unfold classify
        rw [if_pos hmem]
      rw [hst]
      obtain ⟨q, r, cn, heq, hall, hq, hr, hc⟩ := ih st
      refine ⟨q, r, cn, heq, ?_, ?_, ?_, hc⟩
      · intro b hb
        rcases List.mem_cons.mp hb with rfl | hb
        · exact List.mem_append_right _ hmem
        · exact hall b hb
      · exact fun p hp => ⟨(hq p hp).1, (hq p hp).2.1, (hq p hp).2.2.1,
          List.mem_cons_of_mem m (hq p hp).2.2.2⟩
      · exact fun p hp => ⟨(hr p hp).1, (hr p hp).2.1, (hr p hp).2.2.1,
          List.mem_cons_of_mem m (hr p hp).2.2.2⟩
    · by_cases hres : table m ≠ table cod
      · have hst : classify table cod L st m =
            ⟨st.neighbors ++ [(m, L)], st.queue, m :: st.cache⟩ := by
          unfold classify
          rw [if_neg hmem, if_pos hres]
        rw [hst]
        obtain ⟨q, r, cn, heq, hall, hq, hr, hc⟩ :=
          ih ⟨st.neighbors ++ [(m, L)], st.queue, m :: st.cache⟩
        refine ⟨q, (m, L) :: r, cn ++ [m], ?_, ?_, ?_, ?_, ?_⟩
        · rw [heq]
          simp [List.append_assoc]
        · intro b hb
          rcases List.mem_cons.mp hb with rfl | hb
          · simp
          · have := hall b hb
            simp only [List.mem_append, List.mem_cons, List.not_mem_nil, or_false] at this ⊢
            tauto
        · intro p hp
          obtain ⟨h1, h2, h3, h4⟩ := hq p hp
          exact ⟨h1, h2, fun hin => h3 (List.mem_cons_of_mem m hin),
            List.mem_cons_of_mem m h4⟩
        · intro p hp
          rcases List.mem_cons.mp hp with rfl | hp
          · exact ⟨rfl, hres, hmem, List.mem_cons_self m ms⟩
          · obtain ⟨h1, h2, h3, h4⟩ := hr p hp
            exact ⟨h1, h2, fun hin => h3 (List.mem_cons_of_mem m hin),
              List.mem_cons_of_mem m h4⟩
        · intro y hy
          rcases List.mem_append.mp hy with hy | hy
          · rcases hc y hy with ⟨l, hl⟩ | ⟨l, hl⟩
            · exact Or.inl ⟨l, hl⟩
            · exact Or.inr ⟨l, List.mem_cons_of_mem _ hl⟩
          · rw [List.mem_singleton] at hy
            subst hy
            exact Or.inr ⟨L, List.mem_cons_self _ _⟩
      · have hst : classify table cod L st m =
            ⟨st.neighbors, st.queue ++ [(m, L)], m :: st.cache⟩ := by
          unfold classify
          rw [if_neg hmem, if_neg hres]
        rw [hst]
        obtain ⟨q, r, cn, heq, hall, hq, hr, hc⟩ :=
          ih ⟨st.neighbors, st.queue ++ [(m, L)], m :: st.cache⟩
        rw [not_not] at hres
        refine ⟨(m, L) :: q, r, cn ++ [m], ?_, ?_, ?_, ?_, ?_⟩
        · rw [heq]
          simp [List.append_assoc]
        · intro b hb
          rcases List.mem_cons.mp hb with rfl | hb
          · simp
          · have := hall b hb
            simp only [List.mem_append, List.mem_cons, List.not_mem_nil, or_false] at this ⊢
            tauto
        · intro p hp
          rcases List.mem_cons.mp hp with rfl | hp
          · exact ⟨rfl, hres, hmem, List.mem_cons_self m ms⟩
          · obtain ⟨h1, h2, h3, h4⟩ := hq p hp
            exact ⟨h1, h2, fun hin => h3 (List.mem_cons_of_mem m hin),
              List.mem_cons_of_mem m h4⟩
        · intro p hp
          obtain ⟨h1, h2, h3, h4⟩ := hr p hp
          exact ⟨h1, h2, fun hin => h3 (List.mem_cons_of_mem m hin),
            List.mem_cons_of_mem m h4⟩
        · intro y hy
          rcases List.mem_append.mp hy with hy | hy
          · rcases hc y hy with ⟨l, hl⟩ | ⟨l, hl⟩
            · exact Or.inl ⟨l, List.mem_cons_of_mem _ hl⟩
            · exact Or.inr ⟨l, hl⟩
          · rw [List.mem_singleton] at hy
            subst hy
            exact Or.inl ⟨L, List.mem_cons_self _ _⟩

/-- A FIFO queue whose levels form (at most) two consecutive blocks: a front
block at some wave `W` followed by a back block at `W + 1`. -/
def TwoBlock (q : List (Codon × Nat)) : Prop :=
  ∃ W A B, q = A ++ B ∧ (∀ p ∈ A, p.2 = W) ∧ (∀ p ∈ B, p.2 = W + 1)

theorem TwoBlock.band {q : List (Codon × Nat)} (h : TwoBlock q)
    {hd : Codon × Nat} {tl : List (Codon × Nat)} (hh : q = hd :: tl) :
    ∀ p ∈ q, hd.2 ≤ p.2 ∧ p.2 ≤ hd.2 + 1 := by
  obtain ⟨W, A, B, hq, hA, hB⟩ := h
  cases A with
  | nil =>
    simp only [List.nil_append] at hq
    subst hq
    have hd2 : hd.2 = W + 1 := hB hd (hh ▸ List.mem_cons_self _ _)
    intro p hp
    have := hB p hp
    omega
  | cons a0 A' =>
    rw [hq, List.cons_append] at hh
    have ha0 : a0 = hd := by injection hh.symm with h1 _ ; exact h1.symm
    have hd2 : hd.2 = W := ha0 ▸ hA a0 (List.mem_cons_self _ _)
    intro p hp
    rw [hq] at hp
    rcases List.mem_append.mp hp with hp | hp
    · have := hA p (List.mem_cons.mpr (List.mem_cons.mp hp))
      omega
    · have := hB p hp
      omega

theorem TwoBlock.tail {hd : Codon × Nat} {tl : List (Codon × Nat)}
    (h : TwoBlock (hd :: tl)) : TwoBlock tl := by
  obtain ⟨W, A, B, hq, hA, hB⟩ := h
  cases A with
  | nil =>
    simp only [List.nil_append] at hq
    cases B with
    | nil => cases hq
    | cons b0 B' =>
      injection hq with h1 h2
      exact ⟨W, [], B', h2, by simp, fun p hp => hB p (List.mem_cons_of_mem b0 hp)⟩
  | cons a0 A' =>
    rw [List.cons_append] at hq
    injection hq with h1 h2
    exact ⟨W, A', B, h2, fun p hp => hA p (List.mem_cons_of_mem a0 hp), hB⟩

theorem TwoBlock.step {c : Codon} {l₁ : Nat} {rest qnew : List (Codon × Nat)}
    (h : TwoBlock ((c, l₁) :: rest)) (hq : ∀ p ∈ qnew, p.2 = l₁ + 1) :
    TwoBlock (rest ++ qnew) := by
  obtain ⟨W, A, B, hqe, hA, hB⟩ := h
  cases A with
  | nil =>
    simp only [List.nil_append] at hqe
    have hW : l₁ = W + 1 := hB (c, l₁) (hqe ▸ List.mem_cons_self _ _)
    have hrest : ∀ p ∈ rest, p.2 = l₁ := by
      intro p hp
      rw [hW]
      exact hB p (hqe ▸ List.mem_cons_of_mem _ hp)
    exact ⟨l₁, rest, qnew, rfl, hrest, hq⟩
  | cons a0 A' =>
    rw [List.cons_append] at hqe
    injection hqe with h1 h2
    have hW : l₁ = W := by
      have := hA a0 (List.mem_cons_self _ _)
      rw [← h1] at this
      exact this
    refine ⟨W, A', B ++ qnew, by rw [h2, List.append_assoc], 
      fun p hp => hA p (List.mem_cons_of_mem a0 hp), ?_⟩
    intro p hp
    rcases List.mem_append.mp hp with hp | hp
    · exact hB p hp
    · rw [hq p hp, hW]

/-- The loop invariant of one `_connect_recurse` search for source `s`,
established by the seed expansion and preserved by every FIFO dequeue:
all point mutants of the source are cached; queued codons lie on the
source's residue plateau; queue levels form two consecutive blocks; every
plateau codon whose path is strictly shorter than the frontier level has
all its mutants cached; every cached plateau codon is fully expanded or
still pending at a level no later than any of its path lengths; and every
recorded boundary pair is minimal. -/
structure BFSInv (table : Codon → Char) (s : Codon) (st : BFSState) : Prop where
  src_mut_cached : ∀ b ∈ point_mutants s, b ∈ st.cache
  queue_plateau : ∀ p ∈ st.queue, table p.1 = table s
  two_block : TwoBlock st.queue
  complete : ∀ hd tl, st.queue = hd :: tl → ∀ c' m, table c' = table s →
      PlateauPath table s c' m → m < hd.2 → ∀ b ∈ point_mutants c', b ∈ st.cache
  pending : ∀ c' m, table c' = table s → PlateauPath table s c' m → c' ∈ st.cache →
      (∀ b ∈ point_mutants c', b ∈ st.cache) ∨ ∃ l, l ≤ m ∧ (c', l) ∈ st.queue
  recmin : ∀ p ∈ st.neighbors, ∀ n, PlateauPath table s p.1 n → p.2 ≤ n

theorem path_succ {table : Codon → Char} {s c' : Codon} {n : Nat}
    (h : PlateauPath table s c' (n + 1)) :
    ∃ c2, PlateauPath table s c2 n ∧ table c2 = table s ∧ c' ∈ point_mutants c2 := by
  cases h with
  | cons hp hplat hmut => exact ⟨_, hp, hplat, hmut⟩

theorem inv_step {table : Codon → Char} {s : Codon} {st : BFSState} {c : Codon}
    {l₁ : Nat} {rest : List (Codon × Nat)}
    (inv : BFSInv table s st) (hqe : st.queue = (c, l₁) :: rest) :
    BFSInv table s (expand table c (l₁ + 1) ⟨st.neighbors, rest, st.cache⟩) := by
  obtain ⟨qnew, rnew, cnew, heq, hall, hqn, hrn, hcn⟩ :=
    classify_foldSpec table c (l₁ + 1) (point_mutants c) ⟨st.neighbors, rest, st.cache⟩
  unfold expand
  rw [heq]
  dsimp only at hall hqn hrn ⊢
  have hcs : table c = table s :=
    inv.queue_plateau (c, l₁) (by rw [hqe]; exact List.mem_cons_self _ _)
  have hsub : ∀ y ∈ st.cache, y ∈ cnew ++ st.cache := fun y hy => List.mem_append_right _ hy
  have htb : TwoBlock ((c, l₁) :: rest) := hqe ▸ inv.two_block
  have htb_rest : TwoBlock rest := htb.tail
  have hqn1 : ∀ p ∈ qnew, p.2 = l₁ + 1 := fun p hp => (hqn p hp).1
  refine ⟨?_, ?_, ?_, ?_, ?_, ?_⟩
  · exact fun b hb => hsub b (inv.src_mut_cached b hb)
  · intro p hp
    rcases List.mem_append.mp hp with hp | hp
    · exact inv.queue_plateau p (by rw [hqe]; exact List.mem_cons_of_mem _ hp)
    · exact ((hqn p hp).2.1).trans hcs
  · exact TwoBlock.step htb hqn1
  · intro hd tl hht c' m hplat hpath hm b hb
    have hht2 : rest ++ qnew = hd :: tl := hht
    by_cases hml : m < l₁
    · exact hsub b (inv.complete (c, l₁) rest hqe c' m hplat hpath hml b hb)
    · have hhd_mem : hd ∈ rest ++ qnew := hht2 ▸ List.mem_cons_self _ _
      have hd_cases : hd.2 = l₁ ∨ hd.2 = l₁ + 1 := by
        rcases List.mem_append.mp hhd_mem with hh | hh
        · have hbb : l₁ ≤ hd.2 ∧ hd.2 ≤ l₁ + 1 :=
            htb.band rfl hd (List.mem_cons_of_mem _ hh)
          omega
        · exact Or.inr (hqn1 hd hh)
      have hm_eq : m = l₁ := by omega
      rcases m with _ | k
      · rw [path_zero hpath] at hb
        exact hsub b (inv.src_mut_cached b hb)
      · obtain ⟨c2, hp2, hplat2, hmut2⟩ := path_succ hpath
        have hkl : k < l₁ := by omega
        have hccache : c' ∈ st.cache :=
          inv.complete (c, l₁) rest hqe c2 k hplat2 hp2 hkl c' hmut2
        rcases inv.pending c' (k + 1) hplat hpath hccache with hdone | ⟨l, hlm, hpend⟩
        · exact hsub b (hdone b hb)
        · rw [hqe] at hpend
          rcases List.mem_cons.mp hpend with heq2 | hrest
          · have hcc : c' = c := by injection heq2
            rw [hcc] at hb
            exact hall b hb
          · exfalso
            have hhd2 : hd.2 = l₁ + 1 := by omega
            cases rest with
            | nil => cases hrest
            | cons r0 rest2 =>
              rw [List.cons_append] at hht2
              injection hht2 with h1 _
              have hr0 : r0.2 = l₁ + 1 := by rw [h1]; exact hhd2
              have hbb : r0.2 ≤ l ∧ l ≤ r0.2 + 1 := htb_rest.band rfl (c', l) hrest
              omega
  · intro c' m hplat hpath hcnew
    rcases List.mem_append.mp hcnew with hcm | hcm
    · rcases hcn c' hcm with ⟨l, hlq⟩ | ⟨l, hlr⟩
      · by_cases hcsrc : c' = s
        · subst hcsrc
          exact Or.inl (fun b hb => hsub b (inv.src_mut_cached b hb))
        · have hl : l = l₁ + 1 := (hqn (c', l) hlq).1
          have hnotold : c' ∉ st.cache := (hqn (c', l) hlq).2.2.1
          refine Or.inr ⟨l₁ + 1, ?_, List.mem_append_right _ (hl ▸ hlq)⟩
          by_contra hlt
          push_neg at hlt
          rcases m with _ | k
          · exact hcsrc (path_zero hpath)
          · obtain ⟨c2, hp2, hplat2, hmut2⟩ := path_succ hpath
            exact hnotold
              (inv.complete (c, l₁) rest hqe c2 k hplat2 hp2 (by omega) c' hmut2)
      · exact absurd (hplat.trans hcs.symm) (hrn (c', l) hlr).2.1
    · rcases inv.pending c' m hplat hpath hcm with hdone | ⟨l, hlm, hpend⟩
      · exact Or.inl (fun b hb => hsub b (hdone b hb))
      · rw [hqe] at hpend
        rcases List.mem_cons.mp hpend with heq2 | hrest
        · have hcc : c' = c := by injection heq2
          subst hcc
          exact Or.inl (fun b hb => hall b hb)
        · exact Or.inr ⟨l, hlm, List.mem_append_left _ hrest⟩
  · intro p hp n hpathn
    rcases List.mem_append.mp hp with hp | hp
    · exact inv.recmin p hp n hpathn
    · obtain ⟨hpl, hpres, hpcache, _⟩ := hrn p hp
      rw [hpl]
      by_contra hlt
      push_neg at hlt
      rcases n with _ | k
      · exact hpres (by rw [path_zero hpathn]; exact hcs.symm)
      · obtain ⟨c2, hp2, hplat2, hmut2⟩ := path_succ hpathn
        exact hpcache
          (inv.complete (c, l₁) rest hqe c2 k hplat2 hp2 (by omega) p.1 hmut2)

theorem inv_init (table : Codon → Char) (s : Codon) :
    BFSInv table s (expand table s 1 ⟨[], [], init_cache s⟩) := by
  obtain ⟨qnew, rnew, cnew, heq, hall, hqn, hrn, hcn⟩ :=
    classify_foldSpec table s 1 (point_mutants s) ⟨[], [], init_cache s⟩
  unfold expand
  rw [heq]
  simp only [List.nil_append] at hall hqn hrn ⊢
  refine ⟨?_, ?_, ?_, ?_, ?_, ?_⟩
  · exact hall
  · exact fun p hp => (hqn p hp).2.1
  · exact ⟨0, [], qnew, by simp, by simp, fun p hp => (hqn p hp).1⟩
  · intro hd tl hht c' m hplat hpath hm b hb
    have hht2 : qnew = hd :: tl := hht
    have hhd : hd.2 = 1 := (hqn hd (hht2 ▸ List.mem_cons_self _ _)).1
    have hm0 : m = 0 := by omega
    rw [hm0] at hpath
    rw [path_zero hpath] at hb
    exact hall b hb
  · intro c' m hplat hpath hcm
    by_cases hcsrc : c' = s
    · subst hcsrc
      exact Or.inl hall
    · rcases List.mem_append.mp hcm with hcm | hcm
      · rcases hcn c' hcm with ⟨l, hlq⟩ | ⟨l, hlr⟩
        · have hl : l = 1 := (hqn (c', l) hlq).1
          refine Or.inr ⟨1, ?_, hl ▸ hlq⟩
          rcases m with _ | k
          · exact absurd (path_zero hpath) hcsrc
          · omega
        · exact absurd hplat (hrn (c', l) hlr).2.1
      · unfold init_cache at hcm
        rcases List.mem_map.mp hcm with ⟨ch, hch, hceq⟩
        exfalso
        have hlen : c'.length = s.length := path_length hpath
        rw [← hceq] at hlen
        simp only [List.length_singleton] at hlen
        obtain ⟨a, ha⟩ := List.length_eq_one.mp hlen.symm
        rw [ha] at hch
        rw [List.mem_singleton] at hch
        exact hcsrc (by rw [← hceq, hch, ← ha])
  · intro p hp n hpathn
    have hpr := hrn p hp
    rw [hpr.1]
    rcases n with _ | k
    · exact absurd (by rw [path_zero hpathn] : table p.1 = table s) hpr.2.1
    · omega

theorem connectLoop_min (table : Codon → Char) (s : Codon) :
    ∀ (fuel : Nat) (st : BFSState), BFSInv table s st →
      ∀ p ∈ connectLoop table fuel st, ∀ n, PlateauPath table s p.1 n → p.2 ≤ n := by
  intro fuel
  induction fuel with
  | zero =>
    intro st inv p hp n hpath
    exact inv.recmin p hp n hpath
  | succ fuel ih =>
    intro st inv p hp n hpath
    obtain ⟨nb, q, ca⟩ := st
    cases q with
    | nil => exact inv.recmin p hp n hpath
    | cons hd rest =>
      obtain ⟨c, l₁⟩ := hd
      exact ih _ (inv_step inv rfl) p hp n hpath

/-- Claim C1: every `(boundary, distance)` pair in the record
`get_codon_connectivity` returns for a source codon is minimal-distance:
no path of fewer point mutations from the source, passing only through
codons encoding the source's residue, reaches that boundary codon. -/
theorem claim_C1_bfs_minimality (keys : List Codon) (table : Codon → Char)
    (src : Codon) (rec : List (Codon × Nat))
    (hrec : (src, rec) ∈ get_codon_connectivity keys table)
    (b : Codon) (d : Nat) (hb : (b, d) ∈ rec)
    (n : Nat) (hpath : PlateauPath table src b n) : d ≤ n := by
  unfold get_codon_connectivity at hrec
  rcases List.mem_map.mp hrec with ⟨codon, hck, hpair⟩
  injection hpair with h1 h2
  subst h1
  subst h2
  unfold codon_record connect_recurse at hb
  exact connectLoop_min table codon (connect_fuel codon) _ (inv_init table codon) (b, d) hb n
    hpath

/-- Witness for C1: under `demo_table` with source `AAA`, the boundary pair
`(AAC, 1)` is in the record and the one-mutation plateau path to `AAC` is no
shorter than the recorded distance. -/
theorem claim_C1_bfs_minimality_witness :
    ((['A','A','A'] : Codon), codon_record demo_table ['A','A','A']) ∈
        get_codon_connectivity [['A','A','A']] demo_table ∧
    ((['A','A','C'] : Codon), 1) ∈ codon_record demo_table ['A','A','A'] ∧
    (1 : Nat) ≤ 1 :=
  ⟨by decide, by decide,
    claim_C1_bfs_minimality [['A','A','A']] demo_table ['A','A','A']
      (codon_record demo_table ['A','A','A']) (by decide)
      ['A','A','C'] 1 (by decide) 1
      (PlateauPath.cons PlateauPath.nil rfl (by decide))⟩

end Codes
